import Mathlib

/-!
Verification of the manifest-building, slug-generation and rename logic of
`tools/prepare_assets.sh` (the embedded Python passes).  Strings are modelled
as `List Char`; Python's ASCII-relevant `str.lower`, the regexes
`[^a-zA-Z0-9]+` and `-{2,}`, `str.strip("-")`, `os.path.basename`,
`os.path.splitext`, `str.zfill` and CSV dictionary rows are embedded as
executable functions below.  Path normalisation (`os.path.abspath`) is
modelled as the identity on the already-canonical relative paths used here.
-/

/-- ASCII alphanumeric test, the character class `[a-zA-Z0-9]` of the
regular expressions in `slugify`. -/
def isAlnumChar (c : Char) : Bool :=
  (97 ≤ c.toNat && c.toNat ≤ 122) || (65 ≤ c.toNat && c.toNat ≤ 90) ||
    (48 ≤ c.toNat && c.toNat ≤ 57)

/-- ASCII lower-casing of one character, the effect of Python's `str.lower`
on the ASCII strings it is applied to inside `slugify`. -/
def lowerChar (c : Char) : Char :=
  match c with
  | 'A' => 'a' | 'B' => 'b' | 'C' => 'c' | 'D' => 'd' | 'E' => 'e'
  | 'F' => 'f' | 'G' => 'g' | 'H' => 'h' | 'I' => 'i' | 'J' => 'j'
  | 'K' => 'k' | 'L' => 'l' | 'M' => 'm' | 'N' => 'n' | 'O' => 'o'
  | 'P' => 'p' | 'Q' => 'q' | 'R' => 'r' | 'S' => 's' | 'T' => 't'
  | 'U' => 'u' | 'V' => 'v' | 'W' => 'w' | 'X' => 'x' | 'Y' => 'y'
  | 'Z' => 'z' | c => c

/-- Replace a non-alphanumeric character by a hyphen (pointwise part of the
regex substitution `re.sub(r"[^a-zA-Z0-9]+", "-", ...)`). -/
def replChar (c : Char) : Char :=
  if isAlnumChar c then c else '-'

/-- Collapse every run of adjacent hyphens to a single hyphen.  Composed with
`List.map replChar` this is the substitution `re.sub(r"[^a-zA-Z0-9]+", "-", s)`,
and alone it is `re.sub(r"-{2,}", "-", s)`. -/
def squeeze : List Char → List Char
  | [] => []
  | [a] => [a]
  | a :: b :: rest =>
    if a = '-' && b = '-' then squeeze (b :: rest)
    else a :: squeeze (b :: rest)

/-- No two adjacent hyphens occur in the list. -/
def noDD : List Char → Bool
  | a :: b :: rest => (!(a = '-' && b = '-')) && noDD (b :: rest)
  | _ => true

/-- Drop trailing hyphens (the right half of Python's `str.strip("-")`). -/
def trimEnd : List Char → List Char
  | [] => []
  | a :: rest =>
    match trimEnd rest with
    | [] => if a = '-' then [] else [a]
    | r => a :: r

/-- Python's `s.strip("-")`: drop leading and trailing hyphens. -/
def trimH (l : List Char) : List Char :=
  trimEnd (l.dropWhile (fun c => c = '-'))

/-- `os.path.basename`: the part after the last slash. -/
def basename (p : List Char) : List Char :=
  (p.reverse.takeWhile (fun c => c ≠ '/')).reverse

/-- `os.path.dirname`: the part before the last slash, without that slash. -/
def dirname (p : List Char) : List Char :=
  ((p.reverse.dropWhile (fun c => c ≠ '/')).dropWhile (fun c => c = '/')).reverse

/-- The stem of `os.path.splitext` on a slash-free name: cut at the last dot,
except when every character before that dot is itself a dot (then there is no
extension, as for Python's `".hidden"`). -/
def stemOf (p : List Char) : List Char :=
  let afterDot := p.reverse.takeWhile (fun c => c ≠ '.')
  if afterDot.length = p.length then p
  else
    let before := p.take (p.length - afterDot.length - 1)
    if before.any (fun c => c ≠ '.') then before else p

/-- The extension part of `os.path.splitext` applied to a path. -/
def extOf (p : List Char) : List Char :=
  (basename p).drop (stemOf (basename p)).length

/-- The base part of `os.path.splitext` applied to a path (path minus
extension). -/
def stemPath (p : List Char) : List Char :=
  p.take (p.length - (extOf p).length)

/-- `os.path.join` for one level, with empty directory meaning the current
one. -/
def joinPath (d name : List Char) : List Char :=
  if d = [] then name else d ++ '/' :: name

/-- The decimal digit character for a digit value (values ≥ 9 clamp to '9';
only values below 10 arise). -/
def digitChar (d : Nat) : Char :=
  match d with
  | 0 => '0' | 1 => '1' | 2 => '2' | 3 => '3' | 4 => '4'
  | 5 => '5' | 6 => '6' | 7 => '7' | 8 => '8' | _ => '9'

/-- Decimal digits of `n`, most significant first; `fuel ≥ n` makes the
recursion structural so that the kernel can evaluate it. -/
def natDigitsAux : Nat → Nat → List Char
  | _, 0 => []
  | 0, _ + 1 => []
  | fuel + 1, n + 1 =>
    natDigitsAux fuel ((n + 1) / 10) ++ [digitChar ((n + 1) % 10)]

/-- Python's `str(n)` for a natural number: decimal digits, most significant
first. -/
def natDigits (n : Nat) : List Char :=
  if n = 0 then ['0'] else natDigitsAux n n

/-- Python's `str.zfill`: left-pad with zeros to at least `pad` characters. -/
def zfill (pad : Nat) (s : List Char) : List Char :=
  List.replicate (pad - s.length) '0' ++ s

/-- The common numeric-suffix probing loop: try
`pre ++ str(i) ++ post`, `pre ++ str(i+1) ++ post`, … until the candidate is
not in `occ`; `fuel` bounds the search (it is always chosen large enough). -/
def probe (occ : List (List Char)) (pre post : List Char) : Nat → Nat → List Char
  | i, 0 => pre ++ natDigits i ++ post
  | i, fuel + 1 =>
    let cand := pre ++ natDigits i ++ post
    if cand ∈ occ then probe occ pre post (i + 1) fuel else cand

/-- The `dedupe` function of the slug pass: if `s` was already emitted, append
`-2`, `-3`, … until the result is fresh. -/
def dedupe (seen : List (List Char)) (s : List Char) : List Char :=
  if s ∈ seen then probe seen (s ++ ['-']) [] 2 (seen.length + 1) else s

/-- First-match association lookup; dictionaries are lists with the newest
binding in front, so this realises Python-dict overwrite semantics. -/
def alookup (k : List Char) : List (List Char × List Char) → Option (List Char)
  | [] => none
  | (k', v) :: rest => if k = k' then some v else alookup k rest

/-- One row of `images.csv` as read by the slug pass. -/
structure AssetRow where
  filename : List Char
  width : List Char
  height : List Char
deriving DecidableEq

/-- One row of `images_with_slugs.csv` as written by the slug pass. -/
structure ManifestRow where
  filename : List Char
  width : List Char
  height : List Char
  slug : List Char
  title : List Char
deriving DecidableEq

/-- `slugify` of the script: stem of the basename, non-alphanumeric runs to
single hyphens, strip hyphens, lower-case, collapse hyphen runs again. -/
def slugify (name : List Char) : List Char :=
  let base := stemOf (basename name)
  squeeze ((trimH (squeeze (base.map replChar))).map lowerChar)

/-- Modelled from the spec's wording only, for comparison with `slugify`:
lower-case the basename without its extension, replace every maximal run of
non-alphanumeric characters with a single hyphen, trim leading and trailing
hyphens. -/
def slugifySpec (name : List Char) : List Char :=
  trimH (squeeze (((stemOf (basename name)).map lowerChar).map replChar))

/-- Processing of one record of the slug loop: external lookup, then the
sequential / filename / default branches, then `dedupe`.  Returns the output
row together with the updated `seen` set and sequence counter. -/
def buildStep (slug_map title_map : List (List Char × List Char))
    (mode pfx : List Char) (pad : Nat) (seen : List (List Char)) (n : Nat)
    (r : AssetRow) : ManifestRow × List (List Char) × Nat :=
  let fn := basename r.filename
  let slug0 := if slug_map ≠ [] then (alookup fn slug_map).getD [] else []
  let title := if slug_map ≠ [] then (alookup fn title_map).getD [] else []
  let step :=
    if slug0 = [] ∧ mode = "sequential".data then
      (pfx ++ zfill pad (natDigits n), n + 1)
    else if slug0 = [] ∧ mode = "filename".data then
      (if pfx ≠ [] then pfx ++ slugify fn else slugify fn, n)
    else if slug0 = [] then
      (if pfx ≠ [] then pfx ++ slugify fn else slugify fn, n)
    else (slug0, n)
  let slug1 := dedupe seen step.1
  (⟨r.filename, r.width, r.height, slug1, title⟩, slug1 :: seen, step.2)

/-- The slug loop over all records, threading the `seen` set and counter. -/
def buildGo (slug_map title_map : List (List Char × List Char))
    (mode pfx : List Char) (pad : Nat) :
    List AssetRow → List (List Char) → Nat → List ManifestRow
  | [], _, _ => []
  | r :: rs, seen, n =>
    let s := buildStep slug_map title_map mode pfx pad seen n r
    s.1 :: buildGo slug_map title_map mode pfx pad rs s.2.1 s.2.2

/-- The manifest builder: run the slug loop from an empty `seen` set with the
counter at `start`. -/
def buildManifest (slug_map title_map : List (List Char × List Char))
    (mode pfx : List Char) (start pad : Nat) (rows : List AssetRow) :
    List ManifestRow :=
  buildGo slug_map title_map mode pfx pad rows [] start

/-- The external slug table: a header line and the field lists of the data
rows, as consumed by `csv.DictReader`. -/
structure SlugTable where
  header : List (List Char)
  rows : List (List (List Char))

/-- `csv.DictReader` field access `r.get(key)`: pair header names with the
row's fields (truncating at the shorter, missing fields read as `None`) and
look the key up exactly. -/
def rowGet (header fields : List (List Char)) (key : List Char) :
    Option (List Char) :=
  (header.zip fields).foldl
    (fun acc kv => if key = kv.1 then some kv.2 else acc) none

/-- Python truthiness of an optional string: present and non-empty. -/
def truthy : Option (List Char) → Bool
  | none => false
  | some s => s ≠ []

/-- Python's `a or b` on optional strings: `a` when truthy, otherwise `b`. -/
def pyOr (a b : Option (List Char)) : Option (List Char) :=
  if truthy a then a else b

/-- The filename of a slug-table row:
`r.get("filename") or r.get("file") or r.get("name")`. -/
def fnameField (header fields : List (List Char)) : Option (List Char) :=
  pyOr (rowGet header fields "filename".data)
    (pyOr (rowGet header fields "file".data) (rowGet header fields "name".data))

/-- Processing of one slug-table row: rows whose filename or slug is missing
or empty contribute nothing; otherwise the basename of the filename is bound
to the slug and to the title (`r.get("title") or ""`). -/
def loadStep (header : List (List Char))
    (maps : List (List Char × List Char) × List (List Char × List Char))
    (fields : List (List Char)) :
    List (List Char × List Char) × List (List Char × List Char) :=
  let fname := fnameField header fields
  let slug := rowGet header fields "slug".data
  let title := rowGet header fields "title".data
  if truthy fname && truthy slug then
    let fn := basename (fname.getD [])
    ((fn, slug.getD []) :: maps.1,
      (fn, if truthy title then title.getD [] else []) :: maps.2)
  else maps

/-- Load `slug_map` and `title_map` from the external slug table, later rows
overriding earlier ones for the same basename. -/
def loadMaps (t : SlugTable) :
    List (List Char × List Char) × List (List Char × List Char) :=
  t.rows.foldl (loadStep t.header) ([], [])

/-- The directory tree for the rename pass, as `os.walk` yields it: the
directories in walk order, each with its file names. -/
def Fs := List (List Char × List (List Char))

/-- All file paths of the tree (what `os.path.isfile` can see). -/
def allFiles (fs : Fs) : List (List Char) :=
  (fs.map (fun d => d.2.map (joinPath d.1))).flatten

/-- The best-effort search of the rename pass: walk the tree and return the
first directory containing a file of the wanted basename. -/
def findByBasename (fs : Fs) (b : List Char) : Option (List Char) :=
  match fs with
  | [] => none
  | (dp, files) :: rest =>
    if b ∈ files then some (joinPath dp b) else findByBasename rest b

/-- Resolve the source of one rename: prefer the exact relative path under
the root, otherwise search the tree by basename. -/
def resolveSrc (fs : Fs) (root fn : List Char) : Option (List Char) :=
  let src := joinPath root fn
  if src ∈ allFiles fs then some src
  else findByBasename fs (basename src)

/-- One row of the manifest as the rename pass reads it back. -/
structure RenameRow where
  filename : List Char
  slug : List Char
deriving DecidableEq

/-- Plan one move: unresolvable sources and moves onto themselves are
skipped; the destination keeps the source's directory and extension. -/
def planOne (fs : Fs) (root : List Char) (r : RenameRow) :
    Option (List Char × List Char) :=
  match resolveSrc fs root r.filename with
  | none => none
  | some src =>
    let dst := joinPath (dirname src) (r.slug ++ extOf src)
    if src = dst then none else some (src, dst)

/-- The planning pass: collect the planned moves of all rows in order,
against the untouched directory tree. -/
def planMoves (fs : Fs) (root : List Char) (rows : List RenameRow) :
    List (List Char × List Char) :=
  rows.filterMap (planOne fs root)

/-- Clobber avoidance at execute time: if the destination exists, append
`-2`, `-3`, … before the extension until the path is free. -/
def freshDst (occ : List (List Char)) (dst : List Char) : List Char :=
  if dst ∈ occ then
    probe occ (stemPath dst ++ ['-']) (extOf dst) 2 (occ.length + 1)
  else dst

/-- `shutil.move` on the flat set of paths. -/
def moveFile (occ : List (List Char)) (src dst : List Char) :
    List (List Char) :=
  occ.erase src ++ [dst]

/-- The execute pass: perform the planned moves in order against the live
set of paths, resolving collisions as they are found. -/
def executeMoves (occ : List (List Char)) :
    List (List Char × List Char) → List (List Char)
  | [] => occ
  | (src, dst) :: rest => executeMoves (moveFile occ src (freshDst occ dst)) rest

/-- The whole rename flow: the plan is computed and reported first, from the
untouched tree; only afterwards, and only with `--rename-confirm`
(`dry = false`, `confirm = true`), are the moves executed. -/
def runRename (fs : Fs) (root : List Char) (rows : List RenameRow)
    (dry confirm : Bool) :
    List (List Char × List Char) × List (List Char) :=
  let plan := planMoves fs root rows
  (plan, if !dry && confirm then executeMoves (allFiles fs) plan else allFiles fs)

theorem digitChar_inj {x y : Nat} (hx : x < 10) (hy : y < 10)
    (h : digitChar x = digitChar y) : x = y := by
  interval_cases x <;> interval_cases y <;> first | rfl | exact absurd h (by decide)

theorem map_digitChar_inj {l1 l2 : List Nat} (h1 : ∀ x ∈ l1, x < 10)
    (h2 : ∀ x ∈ l2, x < 10) (h : l1.map digitChar = l2.map digitChar) :
    l1 = l2 := by
  induction l1 generalizing l2 with
  | nil =>
    cases l2 with
    | nil => rfl
    | cons b t => simp at h
  | cons a t ih =>
    cases l2 with
    | nil => simp at h
    | cons b t2 =>
      simp only [List.map_cons, List.cons.injEq] at h
      have hab := digitChar_inj (h1 a (by simp)) (h2 b (by simp)) h.1
      subst hab
      have ht := ih (fun x hx => h1 x (by simp [hx]))
        (fun x hx => h2 x (by simp [hx])) h.2
      rw [ht]

theorem natDigitsAux_eq_digits :
    ∀ (fuel n : Nat), n ≤ fuel →
      natDigitsAux fuel n = ((Nat.digits 10 n).map digitChar).reverse := by
  intro fuel
  induction fuel with
  | zero =>
    intro n hn
    interval_cases n
    simp [natDigitsAux]
  | succ f ih =>
    intro n hn
    cases n with
    | zero => simp [natDigitsAux]
    | succ m =>
      have hpos : 0 < m + 1 := Nat.succ_pos m
      rw [show natDigitsAux (f + 1) (m + 1) =
        natDigitsAux f ((m + 1) / 10) ++ [digitChar ((m + 1) % 10)] from rfl]
      rw [ih ((m + 1) / 10) (by omega)]
      rw [Nat.digits_def' (by norm_num : (1 : ℕ) < 10) hpos]
      simp

theorem natDigits_closed (n : Nat) :
    natDigits n = if n = 0 then ['0']
      else ((Nat.digits 10 n).map digitChar).reverse := by
  unfold natDigits
  split
  · rfl
  · exact natDigitsAux_eq_digits n n le_rfl

theorem natDigits_inj : Function.Injective natDigits := by
  intro a b h
  rw [natDigits_closed a, natDigits_closed b] at h
  split at h <;> split at h
  · omega
  · exfalso
    rename_i ha hb
    have hm : (Nat.digits 10 b).map digitChar = ['0'] := by
      have := List.reverse_eq_iff.mp h.symm
      simpa using this
    rcases hd : Nat.digits 10 b with _ | ⟨d, rest⟩
    · rw [hd] at hm; simp at hm
    · rw [hd] at hm
      simp only [List.map_cons, List.cons.injEq] at hm
      have hrest : rest = [] := by
        have := hm.2
        cases rest with
        | nil => rfl
        | cons x xs => simp at this
      subst hrest
      have hdlt : d < 10 := Nat.digits_lt_base (by norm_num) (by rw [hd]; simp)
      have hd0 : d = 0 := digitChar_inj hdlt (by norm_num) hm.1
      subst hd0
      have := Nat.ofDigits_digits 10 b
      rw [hd] at this
      simp [Nat.ofDigits] at this
      exact hb this.symm
  · exfalso
    rename_i ha hb
    have hm : (Nat.digits 10 a).map digitChar = ['0'] := by
      have := List.reverse_eq_iff.mp h
      simpa using this
    rcases hd : Nat.digits 10 a with _ | ⟨d, rest⟩
    · rw [hd] at hm; simp at hm
    · rw [hd] at hm
      simp only [List.map_cons, List.cons.injEq] at hm
      have hrest : rest = [] := by
        have := hm.2
        cases rest with
        | nil => rfl
        | cons x xs => simp at this
      subst hrest
      have hdlt : d < 10 := Nat.digits_lt_base (by norm_num) (by rw [hd]; simp)
      have hd0 : d = 0 := digitChar_inj hdlt (by norm_num) hm.1
      subst hd0
      have := Nat.ofDigits_digits 10 a
      rw [hd] at this
      simp [Nat.ofDigits] at this
      exact ha this.symm
  · rename_i ha hb
    have h2 := List.reverse_injective h
    have h3 := map_digitChar_inj
      (fun x hx => Nat.digits_lt_base (by norm_num) hx)
      (fun x hx => Nat.digits_lt_base (by norm_num) hx) h2
    calc a = Nat.ofDigits 10 (Nat.digits 10 a) := (Nat.ofDigits_digits 10 a).symm
    _ = Nat.ofDigits 10 (Nat.digits 10 b) := by rw [h3]
    _ = b := Nat.ofDigits_digits 10 b

theorem probe_not_mem_of_exists {occ : List (List Char)} {pre post : List Char} :
    ∀ {fuel i : Nat},
      (∃ j, i ≤ j ∧ j ≤ i + fuel ∧ pre ++ natDigits j ++ post ∉ occ) →
      probe occ pre post i fuel ∉ occ := by
  intro fuel
  induction fuel with
  | zero =>
    rintro i ⟨j, h1, h2, h3⟩
    have hj : j = i := by omega
    subst hj
    simpa [probe] using h3
  | succ f ih =>
    rintro i ⟨j, h1, h2, h3⟩
    have hu : probe occ pre post i (f + 1) =
        if (pre ++ natDigits i ++ post) ∈ occ then probe occ pre post (i + 1) f
        else pre ++ natDigits i ++ post := rfl
    by_cases hc : (pre ++ natDigits i ++ post) ∈ occ
    · rw [hu, if_pos hc]
      have hji : j ≠ i := fun hji => h3 (hji ▸ hc)
      exact ih ⟨j, by omega, by omega, h3⟩
    · rw [hu, if_neg hc]
      exact hc

theorem exists_fresh_suffix (occ : List (List Char)) (pre post : List Char)
    (i : Nat) :
    ∃ j, i ≤ j ∧ j ≤ i + occ.length ∧ pre ++ natDigits j ++ post ∉ occ := by
  by_contra hall
  push_neg at hall
  have hinj : Function.Injective (fun k : Nat => pre ++ natDigits (i + k) ++ post) := by
    intro x y hxy
    simp only at hxy
    have h1 := List.append_cancel_right hxy
    have h2 := List.append_cancel_left h1
    have h3 := natDigits_inj h2
    omega
  have hnodup : ((List.range (occ.length + 1)).map
      (fun k => pre ++ natDigits (i + k) ++ post)).Nodup :=
    (List.nodup_range _).map hinj
  have hsub : ((List.range (occ.length + 1)).map
      (fun k => pre ++ natDigits (i + k) ++ post)) ⊆ occ := by
    intro x hx
    simp only [List.mem_map, List.mem_range] at hx
    obtain ⟨k, hk, rfl⟩ := hx
    exact hall (i + k) (by omega) (by omega)
  have hlen := (List.subperm_of_subset hnodup hsub).length_le
  simp at hlen

theorem dedupe_not_mem (seen : List (List Char)) (s : List Char) :
    dedupe seen s ∉ seen := by
  unfold dedupe
  split
  · apply probe_not_mem_of_exists
    obtain ⟨j, h1, h2, h3⟩ := exists_fresh_suffix seen (s ++ ['-']) [] 2
    exact ⟨j, h1, by omega, h3⟩
  · assumption

theorem buildStep_slug_not_mem (slug_map title_map : List (List Char × List Char))
    (mode pfx : List Char) (pad : Nat) (seen : List (List Char)) (n : Nat)
    (r : AssetRow) :
    (buildStep slug_map title_map mode pfx pad seen n r).1.slug ∉ seen :=
  dedupe_not_mem seen _

theorem buildStep_seen_eq (slug_map title_map : List (List Char × List Char))
    (mode pfx : List Char) (pad : Nat) (seen : List (List Char)) (n : Nat)
    (r : AssetRow) :
    (buildStep slug_map title_map mode pfx pad seen n r).2.1 =
      (buildStep slug_map title_map mode pfx pad seen n r).1.slug :: seen := rfl

theorem buildGo_slugs_nodup (slug_map title_map : List (List Char × List Char))
    (mode pfx : List Char) (pad : Nat) :
    ∀ (rows : List AssetRow) (seen : List (List Char)) (n : Nat),
      ((buildGo slug_map title_map mode pfx pad rows seen n).map
        ManifestRow.slug).Nodup ∧
      ∀ s ∈ (buildGo slug_map title_map mode pfx pad rows seen n).map
        ManifestRow.slug, s ∉ seen := by
  intro rows
  induction rows with
  | nil => intro seen n; simp [buildGo]
  | cons r rs ih =>
    intro seen n
    have hgo : buildGo slug_map title_map mode pfx pad (r :: rs) seen n =
        (buildStep slug_map title_map mode pfx pad seen n r).1 ::
          buildGo slug_map title_map mode pfx pad rs
            (buildStep slug_map title_map mode pfx pad seen n r).2.1
            (buildStep slug_map title_map mode pfx pad seen n r).2.2 := rfl
    obtain ⟨ihn, ihm⟩ := ih (buildStep slug_map title_map mode pfx pad seen n r).2.1
      (buildStep slug_map title_map mode pfx pad seen n r).2.2
    rw [hgo]
    constructor
    · rw [List.map_cons, List.nodup_cons]
      refine ⟨fun hmem => ?_, ihn⟩
      have h2 := ihm _ hmem
      rw [buildStep_seen_eq] at h2
      exact h2 (by simp)
    · intro s hs
      rw [List.map_cons, List.mem_cons] at hs
      rcases hs with rfl | hs
      · exact buildStep_slug_not_mem slug_map title_map mode pfx pad seen n r
      · have h2 := ihm _ hs
        rw [buildStep_seen_eq] at h2
        intro hcon
        exact h2 (List.mem_cons_of_mem _ hcon)

/-- C1: for every input record sequence, external slug table and
mode/prefix/start/pad configuration, no two rows of the output manifest share
a slug — the `dedupe` step makes the slug column injective. -/
theorem manifest_slug_column_injective
    (slug_map title_map : List (List Char × List Char)) (mode pfx : List Char)
    (start pad : Nat) (rows : List AssetRow) :
    ((buildManifest slug_map title_map mode pfx start pad rows).map
      ManifestRow.slug).Nodup :=
  (buildGo_slugs_nodup slug_map title_map mode pfx pad rows [] start).1

/-- C8: the manifest builder is deterministic — two runs on inputs that are
equal component for component produce identical output manifests. -/
theorem builder_deterministic
    (m1 m2 t1 t2 : List (List Char × List Char)) (mo1 mo2 p1 p2 : List Char)
    (s1 s2 d1 d2 : Nat) (r1 r2 : List AssetRow)
    (hm : m1 = m2) (ht : t1 = t2) (hmo : mo1 = mo2) (hp : p1 = p2)
    (hs : s1 = s2) (hd : d1 = d2) (hr : r1 = r2) :
    buildManifest m1 t1 mo1 p1 s1 d1 r1 = buildManifest m2 t2 mo2 p2 s2 d2 r2 := by
  subst hm; subst ht; subst hmo; subst hp; subst hs; subst hd; subst hr; rfl

theorem builder_deterministic_witness :
    buildManifest [] [] "sequential".data "visual-".data 1 3
        [⟨"a.jpg".data, "100".data, "100".data⟩] =
      buildManifest [] [] "sequential".data "visual-".data 1 3
        [⟨"a.jpg".data, "100".data, "100".data⟩] :=
  builder_deterministic [] [] [] [] "sequential".data "sequential".data
    "visual-".data "visual-".data 1 1 3 3
    [⟨"a.jpg".data, "100".data, "100".data⟩]
    [⟨"a.jpg".data, "100".data, "100".data⟩]
    rfl rfl rfl rfl rfl rfl rfl

/-- C3: a record whose basename has a (non-empty) entry in the external slug
table receives that entry's slug and title, the generation mode is never
consulted for it, and the sequence counter is unchanged; in particular with
`externalSlugs = ⟨a.jpg ↦ (hero, Hero Shot)⟩` the record `dir/a.jpg` gets slug
`hero` and title `Hero Shot`. -/
theorem external_slug_priority
    (slug_map title_map : List (List Char × List Char)) (mode pfx : List Char)
    (pad : Nat) (seen : List (List Char)) (n : Nat) (r : AssetRow)
    (s : List Char)
    (hlk : alookup (basename r.filename) slug_map = some s) (hs : s ≠ []) :
    (buildStep slug_map title_map mode pfx pad seen n r).1.slug =
        dedupe seen s ∧
      (buildStep slug_map title_map mode pfx pad seen n r).1.title =
        (alookup (basename r.filename) title_map).getD [] ∧
      (buildStep slug_map title_map mode pfx pad seen n r).2.2 = n ∧
      (∀ mode', buildStep slug_map title_map mode' pfx pad seen n r =
        buildStep slug_map title_map mode pfx pad seen n r) ∧
      buildManifest [("a.jpg".data, "hero".data)]
          [("a.jpg".data, "Hero Shot".data)] [] "visual-".data 1 3
          [⟨"dir/a.jpg".data, "1".data, "1".data⟩] =
        [⟨"dir/a.jpg".data, "1".data, "1".data, "hero".data,
          "Hero Shot".data⟩] := by
  have hne : slug_map ≠ [] := by
    intro he
    rw [he] at hlk
    simp [alookup] at hlk
  refine ⟨?_, ?_, ?_, ?_, by decide⟩ <;>
    simp [buildStep, hne, hlk, hs]

theorem external_slug_priority_witness :
    (buildStep [("a.jpg".data, "hero".data)] [("a.jpg".data, "Hero Shot".data)]
        [] "visual-".data 3 [] 1
        ⟨"dir/a.jpg".data, "1".data, "1".data⟩).1.slug =
      dedupe [] "hero".data ∧
    (buildStep [("a.jpg".data, "hero".data)] [("a.jpg".data, "Hero Shot".data)]
        [] "visual-".data 3 [] 1
        ⟨"dir/a.jpg".data, "1".data, "1".data⟩).1.title =
      (alookup (basename ("dir/a.jpg".data : List Char))
        [("a.jpg".data, "Hero Shot".data)]).getD [] ∧
    (buildStep [("a.jpg".data, "hero".data)] [("a.jpg".data, "Hero Shot".data)]
        [] "visual-".data 3 [] 1
        ⟨"dir/a.jpg".data, "1".data, "1".data⟩).2.2 = 1 ∧
    (∀ mode', buildStep [("a.jpg".data, "hero".data)]
        [("a.jpg".data, "Hero Shot".data)] mode' "visual-".data 3 [] 1
        ⟨"dir/a.jpg".data, "1".data, "1".data⟩ =
      buildStep [("a.jpg".data, "hero".data)]
        [("a.jpg".data, "Hero Shot".data)] [] "visual-".data 3 [] 1
        ⟨"dir/a.jpg".data, "1".data, "1".data⟩) ∧
    buildManifest [("a.jpg".data, "hero".data)]
        [("a.jpg".data, "Hero Shot".data)] [] "visual-".data 1 3
        [⟨"dir/a.jpg".data, "1".data, "1".data⟩] =
      [⟨"dir/a.jpg".data, "1".data, "1".data, "hero".data,
        "Hero Shot".data⟩] :=
  external_slug_priority [("a.jpg".data, "hero".data)]
    [("a.jpg".data, "Hero Shot".data)] [] "visual-".data 3 [] 1
    ⟨"dir/a.jpg".data, "1".data, "1".data⟩ "hero".data (by decide) (by decide)

/-- C4: in sequential mode, a record not resolved by the external table gets
the slug `prefix ++ zeroPad(counter, pad)` (then deduplicated), and the
counter — starting at `start` — advances by exactly 1 on this branch; the
two-record scenario yields `visual-001`, `visual-002`. -/
theorem sequential_mode_branch
    (slug_map title_map : List (List Char × List Char)) (pfx : List Char)
    (pad : Nat) (seen : List (List Char)) (n : Nat) (r : AssetRow)
    (hlk : (alookup (basename r.filename) slug_map).getD [] = []) :
    (buildStep slug_map title_map "sequential".data pfx pad seen n r).1.slug =
        dedupe seen (pfx ++ zfill pad (natDigits n)) ∧
      (buildStep slug_map title_map "sequential".data pfx pad seen n
        r).2.2 = n + 1 ∧
      (buildManifest [] [] "sequential".data "visual-".data 1 3
          [⟨"a.jpg".data, "100".data, "100".data⟩,
            ⟨"b.jpg".data, "50".data, "50".data⟩]).map ManifestRow.slug =
        ["visual-001".data, "visual-002".data] := by
  refine ⟨?_, ?_, by decide⟩ <;>
  · by_cases hne : slug_map = []
    · simp [buildStep, hne]
    · simp [buildStep, hne, hlk]

theorem sequential_mode_branch_witness :
    (buildStep [] [] "sequential".data "visual-".data 3 [] 1
        ⟨"a.jpg".data, "100".data, "100".data⟩).1.slug =
      dedupe [] ("visual-".data ++ zfill 3 (natDigits 1)) ∧
    (buildStep [] [] "sequential".data "visual-".data 3 [] 1
        ⟨"a.jpg".data, "100".data, "100".data⟩).2.2 = 1 + 1 ∧
    (buildManifest [] [] "sequential".data "visual-".data 1 3
        [⟨"a.jpg".data, "100".data, "100".data⟩,
          ⟨"b.jpg".data, "50".data, "50".data⟩]).map ManifestRow.slug =
      ["visual-001".data, "visual-002".data] :=
  sequential_mode_branch [] [] "visual-".data 3 [] 1
    ⟨"a.jpg".data, "100".data, "100".data⟩ (by decide)

theorem probe_shape (occ : List (List Char)) (pre post : List Char) :
    ∀ (fuel i : Nat), ∃ j, probe occ pre post i fuel = pre ++ natDigits j ++ post := by
  intro fuel
  induction fuel with
  | zero => intro i; exact ⟨i, rfl⟩
  | succ f ih =>
    intro i
    have hu : probe occ pre post i (f + 1) =
        if (pre ++ natDigits i ++ post) ∈ occ then probe occ pre post (i + 1) f
        else pre ++ natDigits i ++ post := rfl
    rw [hu]
    split
    · exact ih (i + 1)
    · exact ⟨i, rfl⟩

theorem natDigits_ne_nil (n : Nat) : natDigits n ≠ [] := by
  rw [natDigits_closed]
  split
  · simp
  · simp only [ne_eq, List.reverse_eq_nil_iff, List.map_eq_nil_iff]
    intro hc
    exact absurd (Nat.digits_eq_nil_iff_eq_zero.mp hc) (by assumption)

theorem dedupe_ne_nil (seen : List (List Char)) (s : List Char) (hs : s ≠ []) :
    dedupe seen s ≠ [] := by
  unfold dedupe
  split
  · obtain ⟨j, hj⟩ := probe_shape seen (s ++ ['-']) [] (seen.length + 1) 2
    rw [hj]
    simp
  · exact hs

theorem buildStep_slug_ne_nil (slug_map title_map : List (List Char × List Char))
    (mode pfx : List Char) (pad : Nat) (seen : List (List Char)) (n : Nat)
    (r : AssetRow) (hp : pfx ≠ []) :
    (buildStep slug_map title_map mode pfx pad seen n r).1.slug ≠ [] := by
  apply dedupe_ne_nil
  simp only [buildStep]
  split_ifs with h1 h2 h3 <;> simp_all

theorem buildGo_slugs_ne_nil (slug_map title_map : List (List Char × List Char))
    (mode pfx : List Char) (pad : Nat) (hp : pfx ≠ []) :
    ∀ (rows : List AssetRow) (seen : List (List Char)) (n : Nat),
      ∀ row ∈ buildGo slug_map title_map mode pfx pad rows seen n,
        row.slug ≠ [] := by
  intro rows
  induction rows with
  | nil => intro seen n row hrow; simp [buildGo] at hrow
  | cons r rs ih =>
    intro seen n row hrow
    have hgo : buildGo slug_map title_map mode pfx pad (r :: rs) seen n =
        (buildStep slug_map title_map mode pfx pad seen n r).1 ::
          buildGo slug_map title_map mode pfx pad rs
            (buildStep slug_map title_map mode pfx pad seen n r).2.1
            (buildStep slug_map title_map mode pfx pad seen n r).2.2 := rfl
    rw [hgo, List.mem_cons] at hrow
    rcases hrow with rfl | hrow
    · exact buildStep_slug_ne_nil slug_map title_map mode pfx pad seen n r hp
    · exact ih _ _ row hrow

/-- C2 counterexample: with mode `filename`, empty prefix and a basename with
no alphanumeric characters, the output slug is empty — the claim that every
configuration yields non-empty slugs fails on this input. -/
theorem empty_slug_counterexample :
    (buildManifest [] [] "filename".data [] 1 3
      [⟨"!!!.jpg".data, [], []⟩]).map ManifestRow.slug = [[]] := by decide

/-- C2 amended: every row of the output manifest has a non-empty slug
provided the configured prefix is non-empty (with an empty prefix, a record
with no alphanumeric characters in its stem that falls through to the
filename/default branch can receive an empty slug). -/
theorem manifest_slugs_nonempty
    (slug_map title_map : List (List Char × List Char)) (mode pfx : List Char)
    (start pad : Nat) (rows : List AssetRow) (hp : pfx ≠ []) :
    ∀ row ∈ buildManifest slug_map title_map mode pfx start pad rows,
      row.slug ≠ [] :=
  buildGo_slugs_ne_nil slug_map title_map mode pfx pad hp rows [] start

theorem manifest_slugs_nonempty_witness :
    ("visual-".data : List Char) ≠ [] ∧
      ∀ row ∈ buildManifest [] [] "filename".data "visual-".data 1 3
        [⟨"!!!.jpg".data, [], []⟩], row.slug ≠ [] :=
  ⟨by decide, manifest_slugs_nonempty [] [] "filename".data "visual-".data 1 3
    [⟨"!!!.jpg".data, [], []⟩] (by decide)⟩

theorem lowerChar_hyphen_iff (c : Char) : lowerChar c = '-' ↔ c = '-' := by
  unfold lowerChar
  split <;> simp_all

theorem isAlnum_lowerChar (c : Char) : isAlnumChar (lowerChar c) = isAlnumChar c := by
  unfold lowerChar
  split <;> rfl

theorem replChar_lowerChar (c : Char) :
    replChar (lowerChar c) = lowerChar (replChar c) := by
  by_cases h : isAlnumChar c
  · rw [show replChar c = c from by simp [replChar, h]]
    rw [show replChar (lowerChar c) = lowerChar c from by
      simp [replChar, isAlnum_lowerChar, h]]
  · rw [show replChar c = '-' from by simp [replChar, h]]
    rw [show replChar (lowerChar c) = '-' from by
      simp [replChar, isAlnum_lowerChar, h]]
    rfl

theorem squeeze_cons_cons (a b : Char) (rest : List Char) :
    squeeze (a :: b :: rest) =
      if a = '-' && b = '-' then squeeze (b :: rest)
      else a :: squeeze (b :: rest) := rfl

theorem trimEnd_cons (a : Char) (rest : List Char) :
    trimEnd (a :: rest) =
      match trimEnd rest with
      | [] => if a = '-' then [] else [a]
      | r => a :: r := rfl

theorem map_lower_squeeze : ∀ l : List Char,
    (squeeze l).map lowerChar = squeeze (l.map lowerChar)
  | [] => rfl
  | [_] => rfl
  | a :: b :: rest => by
    have ih := map_lower_squeeze (b :: rest)
    have hcond : (decide (lowerChar a = '-') && decide (lowerChar b = '-')) =
        (decide (a = '-') && decide (b = '-')) := by
      rw [decide_eq_decide.mpr (lowerChar_hyphen_iff a),
        decide_eq_decide.mpr (lowerChar_hyphen_iff b)]
    show (squeeze (a :: b :: rest)).map lowerChar =
      squeeze (lowerChar a :: lowerChar b :: rest.map lowerChar)
    rw [squeeze_cons_cons, squeeze_cons_cons, hcond]
    by_cases h : (decide (a = '-') && decide (b = '-')) = true
    · rw [if_pos h, if_pos h]
      exact ih
    · rw [if_neg h, if_neg h]
      rw [List.map_cons, ih]
      rfl

theorem squeeze_cons : ∀ (x : Char) (xs : List Char),
    ∃ t, squeeze (x :: xs) = x :: t
  | x, [] => ⟨[], rfl⟩
  | x, y :: rest => by
    rw [squeeze_cons_cons]
    by_cases h : (decide (x = '-') && decide (y = '-')) = true
    · rw [if_pos h]
      obtain ⟨t, ht⟩ := squeeze_cons y rest
      simp only [Bool.and_eq_true, decide_eq_true_eq] at h
      rw [ht, h.1, h.2]
      exact ⟨t, rfl⟩
    · rw [if_neg h]
      exact ⟨squeeze (y :: rest), rfl⟩

theorem noDD_squeeze : ∀ l : List Char, noDD (squeeze l) = true
  | [] => rfl
  | [_] => rfl
  | a :: b :: rest => by
    have ih := noDD_squeeze (b :: rest)
    rw [squeeze_cons_cons]
    by_cases h : (decide (a = '-') && decide (b = '-')) = true
    · rw [if_pos h]
      exact ih
    · rw [if_neg h]
      obtain ⟨t, ht⟩ := squeeze_cons b rest
      rw [ht]
      rw [ht] at ih
      show ((!(decide (a = '-') && decide (b = '-'))) && noDD (b :: t)) = true
      rw [Bool.and_eq_true]
      have hf : (decide (a = '-') && decide (b = '-')) = false :=
        Bool.eq_false_iff.mpr h
      exact ⟨by rw [hf]; rfl, ih⟩

theorem noDD_tail {a : Char} {l : List Char} (h : noDD (a :: l) = true) :
    noDD l = true := by
  cases l with
  | nil => rfl
  | cons b rest =>
    have hu : noDD (a :: b :: rest) =
        ((!(decide (a = '-') && decide (b = '-'))) && noDD (b :: rest)) := rfl
    rw [hu, Bool.and_eq_true] at h
    exact h.2

theorem squeeze_eq_self : ∀ l : List Char, noDD l = true → squeeze l = l
  | [], _ => rfl
  | [_], _ => rfl
  | a :: b :: rest, h => by
    have hu : noDD (a :: b :: rest) =
        ((!(decide (a = '-') && decide (b = '-'))) && noDD (b :: rest)) := rfl
    rw [hu, Bool.and_eq_true] at h
    rw [squeeze_cons_cons]
    have hf : (decide (a = '-') && decide (b = '-')) = false := by
      cases hx : (decide (a = '-') && decide (b = '-'))
      · rfl
      · rw [hx] at h; exact absurd h.1 (by decide)
    rw [hf]
    show a :: squeeze (b :: rest) = a :: b :: rest
    rw [squeeze_eq_self (b :: rest) h.2]

theorem trimEnd_shape (x : Char) (xs : List Char) :
    trimEnd (x :: xs) = [] ∨ ∃ t, trimEnd (x :: xs) = x :: t := by
  rw [trimEnd_cons]
  cases htx : trimEnd xs with
  | nil =>
    by_cases hx : x = '-'
    · left; simp [hx]
    · right; exact ⟨[], by simp [hx]⟩
  | cons y ys => right; exact ⟨y :: ys, rfl⟩

theorem noDD_trimEnd : ∀ l : List Char, noDD l = true → noDD (trimEnd l) = true
  | [], _ => rfl
  | a :: rest, h => by
    rw [trimEnd_cons]
    cases htr : trimEnd rest with
    | nil =>
      by_cases hx : a = '-' <;> simp [hx, noDD]
    | cons y ys =>
      have ih := noDD_trimEnd rest (noDD_tail h)
      rw [htr] at ih
      cases rest with
      | nil => simp [trimEnd] at htr
      | cons x xs =>
        rcases trimEnd_shape x xs with hsh | ⟨t, hsh⟩
        · rw [hsh] at htr; exact absurd htr (by simp)
        · rw [hsh] at htr
          have hyx : y = x := (List.cons.injEq _ _ _ _ ▸ htr).1.symm ▸ rfl
          have hux : noDD (a :: x :: xs) =
              ((!(decide (a = '-') && decide (x = '-'))) && noDD (x :: xs)) := rfl
          rw [hux, Bool.and_eq_true] at h
          show noDD (a :: y :: ys) = true
          have huy : noDD (a :: y :: ys) =
              ((!(decide (a = '-') && decide (y = '-'))) && noDD (y :: ys)) := rfl
          rw [huy, Bool.and_eq_true]
          subst hyx
          exact ⟨h.1, ih⟩

theorem noDD_dropWhileH : ∀ l : List Char, noDD l = true →
    noDD (l.dropWhile (fun c => c = '-')) = true
  | [], _ => rfl
  | a :: rest, h => by
    rw [List.dropWhile_cons]
    split
    · exact noDD_dropWhileH rest (noDD_tail h)
    · exact h

theorem noDD_trimH (l : List Char) (h : noDD l = true) :
    noDD (trimH l) = true :=
  noDD_trimEnd _ (noDD_dropWhileH l h)

theorem squeeze_trimH_squeeze (l : List Char) :
    squeeze (trimH (squeeze l)) = trimH (squeeze l) :=
  squeeze_eq_self _ (noDD_trimH _ (noDD_squeeze l))

theorem map_lower_trimEnd : ∀ l : List Char,
    (trimEnd l).map lowerChar = trimEnd (l.map lowerChar)
  | [] => rfl
  | a :: rest => by
    have ih := map_lower_trimEnd rest
    rw [List.map_cons, trimEnd_cons, trimEnd_cons]
    cases htr : trimEnd rest with
    | nil =>
      rw [htr] at ih
      rw [← ih]
      by_cases hx : a = '-'
      · rw [if_pos hx, if_pos ((lowerChar_hyphen_iff a).mpr hx)]
        rfl
      · rw [if_neg hx, if_neg (fun hc => hx ((lowerChar_hyphen_iff a).mp hc))]
        rfl
    | cons y ys =>
      rw [htr] at ih
      rw [← ih]
      simp only [List.map_cons]

theorem map_lower_dropWhileH (l : List Char) :
    (l.dropWhile (fun c => c = '-')).map lowerChar =
      (l.map lowerChar).dropWhile (fun c => c = '-') := by
  induction l with
  | nil => rfl
  | cons a rest ih =>
    rw [List.map_cons, List.dropWhile_cons, List.dropWhile_cons]
    by_cases hx : a = '-'
    · rw [if_pos (by simp [hx]), if_pos (by simp [(lowerChar_hyphen_iff a).mpr hx])]
      exact ih
    · have hla : ¬lowerChar a = '-' := fun hc => hx ((lowerChar_hyphen_iff a).mp hc)
      rw [if_neg (by simpa using hx), if_neg (by simpa using hla)]
      rfl

theorem map_lower_trimH (l : List Char) :
    (trimH l).map lowerChar = trimH (l.map lowerChar) := by
  unfold trimH
  rw [map_lower_trimEnd, map_lower_dropWhileH]

theorem map_repl_lower_comm (l : List Char) :
    (l.map lowerChar).map replChar = (l.map replChar).map lowerChar := by
  rw [List.map_map, List.map_map]
  exact List.map_congr_left (fun c _ => replChar_lowerChar c)

/-- C5: the `slugify` of the script agrees, on every input, with the spec's
description (lower-case the extension-less basename, collapse every maximal
non-alphanumeric run to a single hyphen, trim boundary hyphens), and the
`My Photo!!.jpg` scenario produces the slug `my-photo`. -/
theorem slugify_matches_spec :
    (∀ name : List Char, slugify name = slugifySpec name) ∧
      (buildManifest [] [] "filename".data [] 1 3
        [⟨"My Photo!!.jpg".data, [], []⟩]).map ManifestRow.slug =
        ["my-photo".data] := by
  constructor
  · intro name
    show squeeze ((trimH (squeeze ((stemOf (basename name)).map replChar))).map
        lowerChar) = slugifySpec name
    rw [map_lower_trimH, map_lower_squeeze, ← map_repl_lower_comm]
    exact squeeze_trimH_squeeze _
  · decide

theorem rowGet_eq_none {key : List Char} : ∀ (header fields : List (List Char)),
    key ∉ header → rowGet header fields key = none := by
  intro header
  induction header with
  | nil => intro fields h; rfl
  | cons k hs ih =>
    intro fields h
    cases fields with
    | nil => rfl
    | cons v vs =>
      have hk : key ≠ k := fun he => h (he ▸ List.mem_cons_self k hs)
      show ((k, v) :: hs.zip vs).foldl
        (fun acc kv => if key = kv.1 then some kv.2 else acc) none = none
      rw [List.foldl_cons]
      have hstep : (if key = (k, v).1 then some (k, v).2 else none) = none := by
        rw [if_neg hk]
      rw [hstep]
      exact ih vs (fun hm => h (List.mem_cons_of_mem k hm))

theorem loadStep_skip (header : List (List Char))
    (maps : List (List Char × List Char) × List (List Char × List Char))
    (fields : List (List Char))
    (h : truthy (fnameField header fields) = false ∨
      truthy (rowGet header fields "slug".data) = false) :
    loadStep header maps fields = maps := by
  rcases h with h | h <;> simp [loadStep, h]

theorem loadMaps_skips_row (header : List (List Char))
    (xs ys : List (List (List Char))) (r : List (List Char))
    (h : truthy (fnameField header r) = false ∨
      truthy (rowGet header r "slug".data) = false) :
    loadMaps ⟨header, xs ++ r :: ys⟩ = loadMaps ⟨header, xs ++ ys⟩ := by
  show (xs ++ r :: ys).foldl (loadStep header) ([], []) =
    (xs ++ ys).foldl (loadStep header) ([], [])
  rw [List.foldl_append, List.foldl_append, List.foldl_cons,
    loadStep_skip header _ r h]

theorem fnameField_none (header fields : List (List Char))
    (h1 : "filename".data ∉ header) (h2 : "file".data ∉ header)
    (h3 : "name".data ∉ header) : fnameField header fields = none := by
  unfold fnameField
  rw [rowGet_eq_none _ _ h1, rowGet_eq_none _ _ h2, rowGet_eq_none _ _ h3]
  rfl

/-- C6 counterexample: the header `Filename,Slug`, differing from
`filename,slug` only in letter case, loads no entries, while the lower-case
header loads the row — column matching is case-sensitive, not
case-insensitive (the script's `cols = [c.lower() ...]` is dead code). -/
theorem header_case_counterexample :
    (loadMaps ⟨["Filename".data, "Slug".data],
      [["a.jpg".data, "hero".data]]⟩).1 = [] ∧
    (loadMaps ⟨["filename".data, "slug".data],
      [["a.jpg".data, "hero".data]]⟩).1 = [("a.jpg".data, "hero".data)] := by
  decide

/-- C6 amended: the loader matches header names case-sensitively — only the
exact lower-case names `filename`, `file`, `name` (and `slug`) are
recognised, and a table whose header contains none of the three filename
keys exactly loads no entries at all. -/
theorem loadMaps_requires_exact_headers (t : SlugTable)
    (h1 : "filename".data ∉ t.header) (h2 : "file".data ∉ t.header)
    (h3 : "name".data ∉ t.header) : loadMaps t = ([], []) := by
  show t.rows.foldl (loadStep t.header) ([], []) = ([], [])
  induction t.rows with
  | nil => rfl
  | cons r rs ih =>
    rw [List.foldl_cons, loadStep_skip t.header _ r
      (Or.inl (by rw [fnameField_none t.header r h1 h2 h3]; rfl))]
    exact ih

theorem loadMaps_requires_exact_headers_witness :
    ("filename".data ∉ (["Filename".data, "Slug".data] : List (List Char))) ∧
      loadMaps ⟨["Filename".data, "Slug".data],
        [["a.jpg".data, "hero".data]]⟩ = ([], []) :=
  ⟨by decide, loadMaps_requires_exact_headers
    ⟨["Filename".data, "Slug".data], [["a.jpg".data, "hero".data]]⟩
    (by decide) (by decide) (by decide)⟩

/-- C9: a slug-table row whose filename field (through the
`filename`/`file`/`name` chain) or slug field is missing or empty is skipped
entirely — it contributes no lookup entry, and the manifest built from the
loaded maps is exactly the one built without that row. -/
theorem skipped_row_contributes_nothing (header : List (List Char))
    (xs ys : List (List (List Char))) (r : List (List Char))
    (h : truthy (fnameField header r) = false ∨
      truthy (rowGet header r "slug".data) = false) :
    loadMaps ⟨header, xs ++ r :: ys⟩ = loadMaps ⟨header, xs ++ ys⟩ ∧
      ∀ (mode pfx : List Char) (start pad : Nat) (recs : List AssetRow),
        buildManifest (loadMaps ⟨header, xs ++ r :: ys⟩).1
            (loadMaps ⟨header, xs ++ r :: ys⟩).2 mode pfx start pad recs =
          buildManifest (loadMaps ⟨header, xs ++ ys⟩).1
            (loadMaps ⟨header, xs ++ ys⟩).2 mode pfx start pad recs := by
  have he := loadMaps_skips_row header xs ys r h
  exact ⟨he, fun mode pfx start pad recs => by rw [he]⟩

theorem skipped_row_contributes_nothing_witness :
    truthy (rowGet ["filename".data, "slug".data]
        ["a.jpg".data, []] "slug".data) = false ∧
      (loadMaps ⟨["filename".data, "slug".data],
          [["a.jpg".data, []], ["b.jpg".data, "cool".data]]⟩ =
        loadMaps ⟨["filename".data, "slug".data],
          [["b.jpg".data, "cool".data]]⟩ ∧
      ∀ (mode pfx : List Char) (start pad : Nat) (recs : List AssetRow),
        buildManifest (loadMaps ⟨["filename".data, "slug".data],
            [["a.jpg".data, []], ["b.jpg".data, "cool".data]]⟩).1
          (loadMaps ⟨["filename".data, "slug".data],
            [["a.jpg".data, []], ["b.jpg".data, "cool".data]]⟩).2
          mode pfx start pad recs =
        buildManifest (loadMaps ⟨["filename".data, "slug".data],
            [["b.jpg".data, "cool".data]]⟩).1
          (loadMaps ⟨["filename".data, "slug".data],
            [["b.jpg".data, "cool".data]]⟩).2 mode pfx start pad recs) :=
  ⟨by decide, skipped_row_contributes_nothing ["filename".data, "slug".data]
    [] [["b.jpg".data, "cool".data]] ["a.jpg".data, []] (Or.inr (by decide))⟩

/-- C7: the rename flow computes and reports the whole move plan from the
untouched tree before any filesystem mutation, and a collision with an
existing destination is resolved by a `-2`, `-3`, … suffix before the
extension only at execute time: with `hero.jpg` already on disk, the plan
still shows `hero.jpg` while execution produces `hero-2.jpg`. -/
theorem rename_plan_before_execute :
    (∀ (fs : Fs) (root : List Char) (rows : List RenameRow)
      (dry confirm : Bool),
      (runRename fs root rows dry confirm).1 = planMoves fs root rows) ∧
    (∀ (fs : Fs) (root : List Char) (rows : List RenameRow),
      (runRename fs root rows false true).2 =
        executeMoves (allFiles fs) (planMoves fs root rows)) ∧
    (runRename [([], ["a.jpg".data, "hero.jpg".data])] []
        [⟨"a.jpg".data, "hero".data⟩] false true).1 =
      [("a.jpg".data, "hero.jpg".data)] ∧
    (runRename [([], ["a.jpg".data, "hero.jpg".data])] []
        [⟨"a.jpg".data, "hero".data⟩] false true).2 =
      ["hero.jpg".data, "hero-2.jpg".data] := by
  exact ⟨fun fs root rows dry confirm => rfl, fun fs root rows => rfl,
    by decide, by decide⟩

theorem planOne_none_of_unresolved (fs : Fs) (root : List Char)
    (r : RenameRow) (h : resolveSrc fs root r.filename = none) :
    planOne fs root r = none := by
  unfold planOne
  rw [h]

/-- C10: a record whose filename resolves neither at its exact path under the
root nor by basename search anywhere in the tree produces no planned move —
it is skipped and the moves planned for all other records are unchanged. -/
theorem unresolved_record_skipped (fs : Fs) (root : List Char)
    (xs ys : List RenameRow) (r : RenameRow)
    (h : resolveSrc fs root r.filename = none) :
    planMoves fs root (xs ++ r :: ys) = planMoves fs root (xs ++ ys) := by
  unfold planMoves
  rw [List.filterMap_append, List.filterMap_append]
  congr 1
  rw [List.filterMap_cons, planOne_none_of_unresolved fs root r h]

theorem unresolved_record_skipped_witness :
    resolveSrc [([], ["b.jpg".data])] [] "missing.jpg".data = none ∧
      planMoves [([], ["b.jpg".data])] []
          [⟨"missing.jpg".data, "x".data⟩, ⟨"b.jpg".data, "cool".data⟩] =
        planMoves [([], ["b.jpg".data])] [] [⟨"b.jpg".data, "cool".data⟩] :=
  ⟨by decide, unresolved_record_skipped [([], ["b.jpg".data])] [] []
    [⟨"b.jpg".data, "cool".data⟩] ⟨"missing.jpg".data, "x".data⟩ (by decide)⟩
